import Mathlib

/-!
Verification of the shadow-repository synchronization and commit-history
engine of the aiocortex repository, against its natural-language
specification.  The Python sources are shallowly embedded: file trees become
finite maps from relative path (forward-slash joined) to content, commit
graphs become an inductive type whose structural equality models content
addressing, and the effect of `os.walk` traversals on a flat file map is
expressed by path predicates that mirror the pruning logic of the source.
All string helpers are written by structural recursion on character lists so
that every definition evaluates inside the kernel.
-/

set_option maxHeartbeats 1000000

namespace AioCortex

/-! ## String helpers (models of Python `str` operations) -/

/-- Model of Python `s.split("/")`: splits at every slash, keeping empty
segments; the empty string yields `[""]`, so the result is never empty. -/
def splitCharList : List Char → List (List Char)
  | [] => [[]]
  | c :: rest =>
    if c = '/' then [] :: splitCharList rest
    else
      match splitCharList rest with
      | [] => [[c]]
      | seg :: segs => (c :: seg) :: segs

def splitOnSlash (s : String) : List String :=
  (splitCharList s.data).map (fun l => String.mk l)

/-- Model of Python `"/".join(l)`. -/
def joinSlash (l : List String) : String :=
  String.mk (List.intercalate ['/'] (l.map String.data))

def listIsPrefix : List Char → List Char → Bool
  | [], _ => true
  | _ :: _, [] => false
  | c :: cs, d :: ds => c = d && listIsPrefix cs ds

/-- Model of Python `s.startswith(pre)`. -/
def strStartsWith (s pre : String) : Bool :=
  listIsPrefix pre.data s.data

/-- Python `parts[0]` for a nonempty list produced by `str.split`. -/
def firstSeg (p : String) : String := (splitOnSlash p).headD ""

/-- Python `parts[-1]` for a nonempty list produced by `str.split`. -/
def lastSeg (p : String) : String := (splitOnSlash p).getLastD ""

/-! ## Flat file-system model

A directory tree is a finite map from relative path to file content,
represented as an association list.  `fsGet` is file lookup, `fsSet` models
writing a file (overwrite or create) and `fsDel` models unlinking; they are
characterized extensionally by `fsGet_set` and `fsGet_del`, and all reasoning
goes through these lemmas, so the internal list shape carries no meaning.
Directory/file conflicts (a file sitting where a directory is needed) are
outside this flat model.
-/

abbrev FSL := List (String × String)

def fsGet (l : FSL) (p : String) : Option String :=
  match l with
  | [] => none
  | e :: rest => if e.1 = p then some e.2 else fsGet rest p

def fsDel (l : FSL) (p : String) : FSL :=
  l.filter (fun e => e.1 ≠ p)

def fsSet (l : FSL) (p c : String) : FSL :=
  (p, c) :: fsDel l p

theorem fsGet_del (l : FSL) (p q : String) :
    fsGet (fsDel l p) q = if q = p then none else fsGet l q := by
  induction l with
  | nil => simp [fsDel, fsGet]
  | cons e rest ih =>
    by_cases he : e.1 = p
    · have hL : fsDel (e :: rest) p = fsDel rest p := by
        simp [fsDel, List.filter_cons, he]
      rw [hL, ih]
      by_cases hq : q = p
      · simp [hq]
      · have hne : ¬ (e.1 = q) := by rw [he]; exact fun h => hq h.symm
        simp [hq, fsGet, hne]
    · have hL : fsDel (e :: rest) p = e :: fsDel rest p := by
        simp [fsDel, List.filter_cons, he]
      rw [hL]
      by_cases hq : e.1 = q
      · have hqp : ¬ (q = p) := fun h => he (by rw [hq, h])
        simp [fsGet, hq, hqp]
      · simp only [fsGet, hq, if_false, ih]

theorem fsGet_set (l : FSL) (p c q : String) :
    fsGet (fsSet l p c) q = if q = p then some c else fsGet l q := by
  by_cases hq : q = p
  · simp [fsSet, fsGet, hq]
  · have : ¬ (p = q) := fun h => hq h.symm
    simp only [fsSet, fsGet, this, if_false, if_neg hq]
    rw [fsGet_del]
    simp [hq]

/-! ## Glob matching

Models Python `fnmatch.fnmatch` for the glob syntax occurring in the
repository's pattern constants: literal characters, `*` (matches any,
possibly empty, sequence of characters — `fnmatch` does not treat `/`
specially) and `?` (any single character).  No pattern in `filters.py` uses
character classes.  The host is POSIX, so `os.path.normcase` is the identity.
The recursion is fuelled to stay structural: every recursive step strictly
decreases `pattern.length + string.length`, so the initial fuel
`pattern.length + string.length + 1` is never exhausted.
-/

def globMatchF : Nat → List Char → List Char → Bool
  | 0, _, _ => false
  | _ + 1, [], [] => true
  | _ + 1, [], _ :: _ => false
  | fuel + 1, '*' :: ps, [] => globMatchF fuel ps []
  | fuel + 1, '*' :: ps, c :: ss => globMatchF fuel ps (c :: ss) || globMatchF fuel ('*' :: ps) ss
  | _ + 1, '?' :: _, [] => false
  | fuel + 1, '?' :: ps, _ :: ss => globMatchF fuel ps ss
  | _ + 1, _ :: _, [] => false
  | fuel + 1, p :: ps, c :: ss => p = c && globMatchF fuel ps ss

def fnmatch (name pat : String) : Bool :=
  globMatchF (pat.length + name.length + 1) pat.data name.data

/-! ## Path filter (src/aio_cortex/git/filters.py) -/

def excludedDirs : List String :=
  [".storage", ".cloud", ".homeassistant", "www", "media", "storage", "tmp",
   "node_modules", "__pycache__"]

def secretFiles : List String := ["secrets.yaml", ".secrets.yaml"]

def secretExts : List String := ["*.pem", "*.key", "*.crt"]

def dbPatterns : List String :=
  ["*.db", "*.db-shm", "*.db-wal", "*.db-journal", "*.sqlite", "*.sqlite3",
   "home-assistant_v2.db*"]

def logPatterns : List String := ["*.log", "*.log.*", "home-assistant.log"]

def backupPatterns : List String :=
  ["*.bak", "*.backup", "*.old", "*.tmp", "*.temp", "*~"]

def dirDenyPrefixes : List String :=
  [".storage/", ".cloud/", ".homeassistant/", "www/", "media/", "storage/", "tmp/"]

/-- Embedding of `should_include_path`.  `rel_path.replace(os.sep, "/")` is the
identity on POSIX and is omitted; `parts[0]` is `firstSeg`, `parts[-1]` is
`lastSeg` (total because `str.split` never returns an empty list). -/
def should_include_path (relPath : String) (isDir : Bool) (shadowDirName : String) : Bool :=
  if firstSeg relPath = ".git" || firstSeg relPath = shadowDirName then false
  else if isDir then !(excludedDirs.contains (firstSeg relPath))
  else if secretFiles.contains (lastSeg relPath) then false
  else if secretExts.any (fun pat => fnmatch (lastSeg relPath) pat) then false
  else if dbPatterns.any (fun pat => fnmatch (lastSeg relPath) pat || fnmatch relPath pat) then false
  else if logPatterns.any (fun pat => fnmatch (lastSeg relPath) pat || fnmatch relPath pat) then false
  else if backupPatterns.any (fun pat => fnmatch (lastSeg relPath) pat || fnmatch relPath pat) then false
  else if dirDenyPrefixes.any (fun pre => strStartsWith relPath pre) then false
  else true

/-- Claim C6: for every path whose first forward-slash segment is in the
directory denylist or equals the shadow-directory name (or `.git`),
`should_include_path` with `is_dir = True` returns `False`; moreover for
directories the result is a function of the first segment alone, so
occurrences of the shadow-directory name in later segments cannot affect it. -/
theorem c6_dir_denylist_excluded (p sd : String) :
    ((firstSeg p ∈ excludedDirs ∨ firstSeg p = sd ∨ firstSeg p = ".git") →
      should_include_path p true sd = false) ∧
    (∀ q : String, firstSeg p = firstSeg q →
      should_include_path p true sd = should_include_path q true sd) := by
  constructor
  · intro h
    unfold should_include_path
    by_cases hg : (firstSeg p = ".git" || firstSeg p = sd) = true
    · simp [hg]
    · simp only [Bool.or_eq_true, decide_eq_true_eq, not_or] at hg
      rcases h with h | h | h
      · simp [hg.1, hg.2, h]
      · exact absurd h hg.2
      · exact absurd h hg.1
  · intro q hq
    unfold should_include_path
    simp only [if_true]
    rw [hq]

/-- Witness for C6 at a concrete input. -/
theorem c6_dir_denylist_excluded_witness :
    should_include_path ".storage/www/cortex_git" true "cortex_git" = false ∧
    should_include_path "media/a" true "cortex_git" =
      should_include_path "media/b" true "cortex_git" :=
  ⟨(c6_dir_denylist_excluded ".storage/www/cortex_git" "cortex_git").1 (by decide),
   (c6_dir_denylist_excluded "media/a" "cortex_git").2 "media/b" (by decide)⟩

/-- Claim C7: every file whose filename matches `*.db`, `*.sqlite3`, `*.log`,
`*.bak` or `*.pem`, or whose filename equals `secrets.yaml`, is excluded by
`should_include_path` with `is_dir = False`, in any directory. -/
theorem c7_sensitive_files_excluded (p sd : String)
    (h : fnmatch (lastSeg p) "*.db" = true ∨
         fnmatch (lastSeg p) "*.sqlite3" = true ∨
         fnmatch (lastSeg p) "*.log" = true ∨
         fnmatch (lastSeg p) "*.bak" = true ∨
         fnmatch (lastSeg p) "*.pem" = true ∨
         lastSeg p = "secrets.yaml") :
    should_include_path p false sd = false := by
  unfold should_include_path
  rw [if_neg Bool.false_ne_true]
  split_ifs with hgit hsec hext hdb hlog hbak hpre <;> try rfl
  exfalso
  simp at hsec hext hdb hlog hbak
  rcases h with h | h | h | h | h | h
  · exact absurd h (by simp [(hdb "*.db" (by simp [dbPatterns])).1])
  · exact absurd h (by simp [(hdb "*.sqlite3" (by simp [dbPatterns])).1])
  · exact absurd h (by simp [(hlog "*.log" (by simp [logPatterns])).1])
  · exact absurd h (by simp [(hbak "*.bak" (by simp [backupPatterns])).1])
  · exact absurd h (by simp [hext "*.pem" (by simp [secretExts])])
  · exact hsec (by rw [h]; simp [secretFiles])

/-- Witness for C7 at a concrete input. -/
theorem c7_sensitive_files_excluded_witness :
    should_include_path "sub/dir/home-assistant_v2.db" false "cortex_git" = false :=
  c7_sensitive_files_excluded "sub/dir/home-assistant_v2.db" "cortex_git" (by decide)

/-! ## Path normalization (model of Python `posixpath.normpath`) -/

def normpathStep (initialSlashes : Nat) (acc : List String) (comp : String) : List String :=
  if comp = "" ∨ comp = "." then acc
  else if comp ≠ ".." ∨ (initialSlashes = 0 ∧ acc = []) ∨ acc.getLast? = some ".." then
    acc ++ [comp]
  else acc.dropLast

/-- Model of `os.path.normpath` on POSIX: collapses empty and `.` components,
resolves `..` lexically (keeping leading `..` on relative paths), preserves
one or two leading slashes, and maps the empty result to `"."`. -/
def normpath (p : String) : String :=
  if p = "" then "."
  else
    let slashes : Nat :=
      if strStartsWith p "//" && !(strStartsWith p "///") then 2
      else if strStartsWith p "/" then 1
      else 0
    let comps := (splitOnSlash p).foldl (normpathStep slashes) []
    let result := String.mk (List.replicate slashes '/') ++ joinSlash comps
    if result = "" then "." else result

/-! ## Sync engine (src/aio_cortex/git/sync.py)

The effect of each `os.walk` traversal on the flat file map is captured by a
predicate on paths that mirrors the pruning done inside that walk.
-/

/-- Directory part of a relative path (the walk's `rel_root` for the file). -/
def dirOf (p : String) : List String := (splitOnSlash p).dropLast

/-- A shadow-tree walk (used by both directions of the sync engine) removes
`.git` and `export` from `dirs` at every level, and additionally skips any
root whose relative path string starts with `"export"`. -/
def shadowWalkVisits (p : String) : Bool :=
  (dirOf p).all (fun s => s ≠ ".git" && s ≠ "export") &&
  !(strStartsWith (joinSlash (dirOf p)) "export")

/-- The `delete_missing` walk over the live directory removes `.git` and the
shadow directory from `dirs` at every level (no `export` handling there). -/
def configWalkVisits (sdn : String) (p : String) : Bool :=
  (dirOf p).all (fun s => s ≠ ".git" && s ≠ sdn)

/-- The proper directory prefixes of a relative path, as slash-joined strings:
exactly the `rel_dir` values the live-to-shadow copy walk filters with
`should_include_path(rel_dir, is_dir=True)` before descending. -/
def dirPrefixPaths (p : String) : List String :=
  (List.range ((splitOnSlash p).length - 1)).map
    (fun i => joinSlash ((splitOnSlash p).take (i + 1)))

/-- A file of the live directory is reached by the copy walk iff every proper
ancestor directory passes the directory filter. -/
def copyWalkVisits (sdn : String) (p : String) : Bool :=
  (dirPrefixPaths p).all (fun d => should_include_path d true sdn)

/-- Embedding of `_copy_single` inside `sync_shadow_to_config`: normalize the
path, skip if the source is absent in the shadow tree, else copy it over. -/
def copySingle (shadow live : FSL) (relPath : String) : FSL :=
  match fsGet shadow (normpath relPath) with
  | none => live
  | some c => fsSet live (normpath relPath) c

/-- Python truthiness of the `only_paths` argument: `None` and `[]` are falsy. -/
def onlyTruthy : Option (List String) → Bool
  | none => false
  | some l => !l.isEmpty

/-- The full-tree copy branch of `sync_shadow_to_config`: walk the shadow
tree (pruning `.git` and `export`, skipping roots under `export*`) and copy
every visited file to the live directory. -/
def fullShadowCopy (shadow live : FSL) : FSL :=
  (shadow.filter (fun e => shadowWalkVisits e.1)).foldl
    (fun lv e => copySingle shadow lv e.1) live

/-- The copy phase of `sync_shadow_to_config`: `for p in only_paths` when the
argument is truthy, the full shadow walk otherwise. -/
def shadowCopyPhase (shadow live : FSL) (onlyPaths : Option (List String)) : FSL :=
  if onlyTruthy onlyPaths then (onlyPaths.getD []).foldl (copySingle shadow) live
  else fullShadowCopy shadow live

/-- Normalized paths of the files found by the shadow-tree walk. -/
def shadowTrackedPaths (shadow : FSL) : List String :=
  (shadow.filter (fun e => shadowWalkVisits e.1)).map (fun e => normpath e.1)

/-- Normalized paths of the tracked files found by walking the live
directory (pruning `.git` and the shadow directory, applying the file
filter). -/
def configTrackedPaths (cur : FSL) (sdn : String) : List String :=
  (cur.filter (fun e => configWalkVisits sdn e.1 &&
    should_include_path (normpath e.1) false sdn)).map (fun e => normpath e.1)

/-- The `delete_missing` pass of `sync_shadow_to_config`: it runs after the
copy phase, so both walks see the post-copy live directory `cur`; every
tracked live file absent from the shadow tree is deleted. -/
def deleteMissingPass (shadow cur : FSL) (sdn : String) : FSL :=
  (configTrackedPaths cur sdn).foldl
    (fun lv p => if (shadowTrackedPaths shadow).contains p then lv else fsDel lv p) cur

/-- Embedding of `sync_shadow_to_config`. -/
def sync_shadow_to_config (shadow live : FSL) (onlyPaths : Option (List String))
    (deleteMissing : Bool) (sdn : String) : FSL :=
  if deleteMissing then
    deleteMissingPass shadow (shadowCopyPhase shadow live onlyPaths) sdn
  else shadowCopyPhase shadow live onlyPaths

/-- The `included` set of `sync_config_to_shadow`: every live file reached by
the pruned copy walk and passing the file filter, keyed by its normalized
relative path. -/
def includedFiles (config : FSL) (sdn : String) : FSL :=
  (config.filter (fun e =>
    copyWalkVisits sdn e.1 && should_include_path (normpath e.1) false sdn)).map
    (fun e => (normpath e.1, e.2))

/-- Embedding of `sync_config_to_shadow`: copy every included live file into
the shadow tree, then walk the shadow tree and delete every visited file
whose normalized path is not in the `included` set. -/
def sync_config_to_shadow (config shadow : FSL) (sdn : String) : FSL :=
  ((includedFiles config sdn).foldl (fun sh e => fsSet sh e.1 e.2) shadow).filter
    (fun e => !shadowWalkVisits e.1 ||
      (includedFiles config sdn).any (fun i => i.1 = normpath e.1))

/-! ### Map lemmas for the sync proofs -/

theorem fsGet_foldl_set_not_mem (I : FSL) :
    ∀ (b : FSL) (q : String), I.any (fun e => e.1 = q) = false →
      fsGet (I.foldl (fun sh e => fsSet sh e.1 e.2) b) q = fsGet b q := by
  induction I with
  | nil => intro b q _; rfl
  | cons e rest ih =>
    intro b q h
    simp only [List.any_cons, Bool.or_eq_false_iff] at h
    simp only [List.foldl_cons]
    rw [ih _ _ h.2, fsGet_set]
    have : ¬ (q = e.1) := by
      intro hq
      have := h.1
      simp [hq] at this
    simp [this]

theorem fsGet_foldl_set_mem (I : FSL) :
    ∀ (b₁ b₂ : FSL) (q : String), I.any (fun e => e.1 = q) = true →
      fsGet (I.foldl (fun sh e => fsSet sh e.1 e.2) b₁) q =
      fsGet (I.foldl (fun sh e => fsSet sh e.1 e.2) b₂) q := by
  induction I with
  | nil => intro b₁ b₂ q h; simp at h
  | cons e rest ih =>
    intro b₁ b₂ q h
    simp only [List.foldl_cons]
    by_cases hr : rest.any (fun e => e.1 = q) = true
    · exact ih _ _ _ hr
    · have hq : e.1 = q := by
        simp only [List.any_cons, Bool.or_eq_true] at h
        rcases h with h | h
        · exact of_decide_eq_true h
        · exact absurd h hr
      have hrf : rest.any (fun e => e.1 = q) = false := Bool.eq_false_iff.mpr hr
      rw [fsGet_foldl_set_not_mem rest _ _ hrf,
          fsGet_foldl_set_not_mem rest _ _ hrf,
          fsGet_set, fsGet_set]
      simp [hq]

theorem fsGet_filter_key (l : FSL) (P : String → Bool) (q : String) :
    fsGet (l.filter (fun e => P e.1)) q = if P q then fsGet l q else none := by
  induction l with
  | nil => simp [fsGet]
  | cons e rest ih =>
    by_cases he : P e.1
    · rw [List.filter_cons_of_pos (by simpa using he)]
      by_cases hq : e.1 = q
      · simp [fsGet, hq, hq ▸ he]
      · simp only [fsGet, hq, if_false]
        exact ih
    · rw [List.filter_cons_of_neg (by simpa using he)]
      by_cases hq : e.1 = q
      · rw [ih]
        have : P q = false := by rw [← hq]; simpa using he
        simp [this, fsGet]
      · rw [ih]
        simp only [fsGet, hq, if_false]

theorem fsGet_copy_fold (shadow : FSL) :
    ∀ (ps : List String) (live : FSL) (q : String),
      fsGet (ps.foldl (copySingle shadow) live) q =
        if ps.any (fun p => normpath p = q) = true ∧ (fsGet shadow q).isSome then
          fsGet shadow q
        else fsGet live q := by
  intro ps
  induction ps with
  | nil => intro live q; simp
  | cons p rest ih =>
    intro live q
    simp only [List.foldl_cons]
    rw [ih]
    rcases hsq : fsGet shadow q with _ | c
    · simp only [hsq, Option.isSome_none, Bool.false_eq_true, and_false, if_false]
      unfold copySingle
      rcases hsp : fsGet shadow (normpath p) with _ | d
      · rfl
      · have : ¬ (q = normpath p) := by
          intro hq
          rw [hq, hsp] at hsq
          exact Option.noConfusion hsq
        rw [fsGet_set]
        simp [this]
    · by_cases hrest : rest.any (fun p => normpath p = q) = true
      · simp [hrest, hsq]
      · simp only [List.any_cons, Bool.or_eq_true, hrest, or_false, hsq,
          Option.isSome_some, and_true, decide_eq_true_eq]
        unfold copySingle
        by_cases hp : normpath p = q
        · rw [hp, hsq, fsGet_set]
          simp [hrest, hsq, hp]
        · rcases hsp : fsGet shadow (normpath p) with _ | d
          · simp [hrest, hp, hsq]
          · rw [fsGet_set]
            have : ¬ (q = normpath p) := fun h => hp h.symm
            simp [this, hrest, hp, hsq]

/-- Claim C3: with a non-empty `only_paths`, `sync_shadow_to_config` copies
exactly the listed relative paths that exist in the shadow tree to the live
directory, silently skipping absent sources: at every path `q`, the result
holds the shadow content iff `q` is the normalization of a listed path and
present in shadow, and is otherwise the untouched live content. -/
theorem c3_sync_only_paths_exact (shadow live : FSL) (ps : List String) (sdn : String)
    (hne : ps ≠ []) (q : String) :
    fsGet (sync_shadow_to_config shadow live (some ps) false sdn) q =
      if ps.any (fun p => normpath p = q) = true ∧ (fsGet shadow q).isSome then
        fsGet shadow q
      else fsGet live q := by
  have htruthy : onlyTruthy (some ps) = true := by
    cases ps with
    | nil => exact absurd rfl hne
    | cons a l => simp [onlyTruthy]
  unfold sync_shadow_to_config shadowCopyPhase
  rw [htruthy]
  simp only [if_true, Bool.false_eq_true, if_false, Option.getD_some]
  exact fsGet_copy_fold shadow ps live q

/-- Witness for C3 at a concrete input: `a.yaml` is copied, the absent listed
source `missing.yaml` is skipped, and the unlisted shadow file `b.yaml` is
not copied. -/
theorem c3_sync_only_paths_exact_witness :
    fsGet (sync_shadow_to_config [("a.yaml", "A"), ("b.yaml", "B")] [("c.yaml", "C")]
        (some ["a.yaml", "missing.yaml"]) false "cortex_git") "a.yaml" = some "A" ∧
    fsGet (sync_shadow_to_config [("a.yaml", "A"), ("b.yaml", "B")] [("c.yaml", "C")]
        (some ["a.yaml", "missing.yaml"]) false "cortex_git") "missing.yaml" = none ∧
    fsGet (sync_shadow_to_config [("a.yaml", "A"), ("b.yaml", "B")] [("c.yaml", "C")]
        (some ["a.yaml", "missing.yaml"]) false "cortex_git") "b.yaml" = none := by
  refine ⟨?_, ?_, ?_⟩
  · rw [c3_sync_only_paths_exact _ _ _ _ (by decide) _]
    decide
  · rw [c3_sync_only_paths_exact _ _ _ _ (by decide) _]
    decide
  · rw [c3_sync_only_paths_exact _ _ _ _ (by decide) _]
    decide

theorem fsGet_sync_filter (I l : FSL) (q : String) :
    fsGet (l.filter (fun e => !shadowWalkVisits e.1 ||
        I.any (fun i => i.1 = normpath e.1))) q =
      if (!shadowWalkVisits q || I.any (fun i => i.1 = normpath q)) = true then
        fsGet l q
      else none :=
  fsGet_filter_key l (fun x => !shadowWalkVisits x || I.any (fun i => i.1 = normpath x)) q

/-- Pointwise closed form of `sync_config_to_shadow`: a path survives the
removal walk iff it is unvisited or included; if it is an included path its
content is the (base-independent) copied content, otherwise the prior shadow
content. -/
theorem fsGet_sync_config_to_shadow (config s : FSL) (sdn q : String) :
    fsGet (sync_config_to_shadow config s sdn) q =
      if (!shadowWalkVisits q || (includedFiles config sdn).any
          (fun i => i.1 = normpath q)) = true then
        (if (includedFiles config sdn).any (fun e => e.1 = q) = true then
          fsGet ((includedFiles config sdn).foldl (fun sh e => fsSet sh e.1 e.2) []) q
        else fsGet s q)
      else none := by
  unfold sync_config_to_shadow
  rw [fsGet_sync_filter]
  by_cases hP : (!shadowWalkVisits q || (includedFiles config sdn).any
      (fun i => i.1 = normpath q)) = true
  · rw [if_pos hP, if_pos hP]
    by_cases hmem : (includedFiles config sdn).any (fun e => e.1 = q) = true
    · rw [if_pos hmem]
      exact fsGet_foldl_set_mem _ _ _ q hmem
    · rw [if_neg hmem]
      exact fsGet_foldl_set_not_mem _ _ q (Bool.eq_false_iff.mpr hmem)
  · rw [if_neg hP, if_neg hP]

/-- Claim C8: running the live-to-shadow sync twice in succession with the
same live directory produces a shadow tree with identical content to the one
after the first run. -/
theorem c8_sync_config_to_shadow_idempotent (config s : FSL) (sdn : String) (q : String) :
    fsGet (sync_config_to_shadow config (sync_config_to_shadow config s sdn) sdn) q =
      fsGet (sync_config_to_shadow config s sdn) q := by
  rw [fsGet_sync_config_to_shadow, fsGet_sync_config_to_shadow]
  by_cases hP : (!shadowWalkVisits q || (includedFiles config sdn).any
      (fun i => i.1 = normpath q)) = true
  · by_cases hmem : (includedFiles config sdn).any (fun e => e.1 = q) = true
    · simp [hP, hmem]
    · simp [hP, hmem]
  · simp [hP]

/-! ## Sandbox path resolution (src/aio_cortex/files/manager.py and
src/aiocortex/git/manager.py)

Absolute paths are modelled as lists of segments below the filesystem root;
`pyStr` renders them the way `str(Path)` does.  `Path.resolve()` is modelled
lexically (no symbolic links in the model): each `..` pops a segment, and
popping at the root stays at the root. -/

def pyStr (segs : List String) : String :=
  String.mk ('/' :: List.intercalate ['/'] (segs.map String.data))

def resolveSegs (root : List String) (rel : String) : List String :=
  (splitOnSlash rel).foldl
    (fun acc seg =>
      if seg = "" || seg = "." then acc
      else if seg = ".." then acc.dropLast
      else acc ++ [seg]) root

/-- Embedding of `AsyncFileManager._get_full_path`: empty and `"/"` map to the
root; one leading slash is stripped (`relative_path[1:]`); the candidate is
resolved against `config_path` and accepted iff `str(candidate)` starts with
`str(config_path)`. -/
def get_full_path (configPath : List String) (relativePath : String) :
    Except String (List String) :=
  if relativePath = "" || relativePath = "/" then .ok configPath
  else
    let rel := if strStartsWith relativePath "/" then String.mk (relativePath.data.drop 1)
      else relativePath
    let fullPath := resolveSegs configPath rel
    if strStartsWith (pyStr fullPath) (pyStr configPath) then .ok fullPath
    else .error "PathSecurityError"

/-- Embedding of `GitManager._resolve_config_path`: `lstrip("/")` removes all
leading slashes; same string-prefix acceptance check, raising `GitError`. -/
def resolve_config_path (configPath : List String) (relativePath : String) :
    Except String (List String) :=
  let fullPath := resolveSegs configPath
    (String.mk (relativePath.data.dropWhile (fun c => c = '/')))
  if strStartsWith (pyStr fullPath) (pyStr configPath) then .ok fullPath
  else .error "GitError"

/-- Claim C2 (code bug): the sandbox check compares rendered path strings with
`str.startswith`, so a sibling directory whose name extends the root's name
passes the check.  With root `/cfg`, the relative path `../cfgX` resolves to
`/cfgX` — outside the root, since `["cfg"]` is not a segment prefix of
`["cfgX"]` — yet both `_get_full_path` and `_resolve_config_path` accept it
instead of raising the path-security error their docstrings promise. -/
theorem c2_path_security_prefix_bug :
    get_full_path ["cfg"] "../cfgX" = .ok ["cfgX"] ∧
    resolve_config_path ["cfg"] "../cfgX" = .ok ["cfgX"] ∧
    List.isPrefixOf ["cfg"] ["cfgX"] = false ∧
    get_full_path ["cfg"] "../outside" = .error "PathSecurityError" := by
  refine ⟨rfl, rfl, by decide, rfl⟩

/-! ## Commit graph (dulwich objects, src/aio_cortex/git/cleanup.py)

A commit object carries its parent references, message and tree snapshot.
dulwich identifies objects by content hash; absent collisions, object
identity is content identity, so the model identifies a commit with its
content: `repo.get_object(sha)` is the identity and
`repo.object_store.add_object` is a no-op. -/

inductive CommitG where
  | mk (parents : List CommitG) (message : String) (treeData : List (String × String))

mutual

def cgDecEq : (a b : CommitG) → Decidable (a = b)
  | .mk ps₁ m₁ t₁, .mk ps₂ m₂ t₂ =>
    match cgDecEqList ps₁ ps₂ with
    | isFalse h => isFalse (by intro he; cases he; exact h rfl)
    | isTrue hp =>
      match decEq m₁ m₂ with
      | isFalse h => isFalse (by intro he; cases he; exact h rfl)
      | isTrue hm =>
        match decEq t₁ t₂ with
        | isFalse h => isFalse (by intro he; cases he; exact h rfl)
        | isTrue ht => isTrue (by rw [hp, hm, ht])

def cgDecEqList : (a b : List CommitG) → Decidable (a = b)
  | [], [] => isTrue rfl
  | _ :: _, [] => isFalse (by intro h; cases h)
  | [], _ :: _ => isFalse (by intro h; cases h)
  | a :: as, b :: bs =>
    match cgDecEq a b with
    | isFalse h => isFalse (by intro he; cases he; exact h rfl)
    | isTrue h1 =>
      match cgDecEqList as bs with
      | isFalse h => isFalse (by intro he; cases he; exact h rfl)
      | isTrue h2 => isTrue (by rw [h1, h2])

end

instance : DecidableEq CommitG := cgDecEq

@[simp] def CommitG.parents : CommitG → List CommitG
  | .mk ps _ _ => ps

@[simp] def CommitG.message : CommitG → String
  | .mk _ m _ => m

@[simp] def CommitG.treeData : CommitG → List (String × String)
  | .mk _ _ t => t

/-- `git rev-list --count --first-parent`: length of the first-parent chain. -/
def fpCount : CommitG → Nat
  | .mk [] _ _ => 1
  | .mk (p :: _) _ _ => 1 + fpCount p

/-- The messages along the first-parent chain, most recent first. -/
def fpMessages : CommitG → List String
  | .mk [] m _ => [m]
  | .mk (p :: _) m _ => m :: fpMessages p

/-- The chain-collection loop of `_truncate_via_dulwich`:
`while current and len(chain) < fuel`, following first parents. -/
def fpChain : CommitG → Nat → List CommitG
  | _, 0 => []
  | c, fuel + 1 =>
    c :: (match c.parents with
      | [] => []
      | p :: _ => fpChain p fuel)

/-- `sha_map` lookup: first (most recently inserted) matching entry, matching
Python dict overwrite semantics since new entries are consed at the front. -/
def cgLookup (m : List (CommitG × CommitG)) (k : CommitG) : Option CommitG :=
  match m with
  | [] => none
  | e :: rest => if e.1 = k then some e.2 else cgLookup rest k

/-- `sha_map.get(p, p)`. -/
def cgLookupD (m : List (CommitG × CommitG)) (k d : CommitG) : CommitG :=
  (cgLookup m k).getD d

/-- One iteration body of the rewrite loop: replace every parent reference
through the remap table. -/
def remapCommit (m : List (CommitG × CommitG)) : CommitG → CommitG
  | .mk ps msg t => .mk (ps.map (fun p => cgLookupD m p p)) msg t

/-- The `for i in range(commits_to_keep - 2, -1, -1)` loop: rewrite each
commit (walking from oldest kept towards HEAD) and record it in `sha_map`. -/
def rewriteLoop (m : List (CommitG × CommitG)) : List CommitG → List (CommitG × CommitG)
  | [] => m
  | c :: rest => rewriteLoop ((c, remapCommit m c) :: m) rest

/-- Python list indexing, including negative indices. -/
def pyIdx {α : Type} (l : List α) (i : Int) : Option α :=
  if i < 0 then
    if (l.length : Int) + i < 0 then none
    else l.get? ((l.length : Int) + i).toNat
  else l.get? i.toNat

/-- Embedding of `_truncate_via_dulwich`: collect up to `keep_count + 1`
first-parent commits; if no more than `keep_count` were found return that
length unchanged; otherwise orphan `chain[keep_count - 1]` (Python indexing —
negative for `keep_count = 0`), rewrite the newer commits through the remap
table, repoint HEAD, and return `keep_count`.  `none` models an
`IndexError` from the chain indexing. -/
def truncate_via_dulwich (head : CommitG) (keep : Nat) : Option (CommitG × Nat) :=
  if (fpChain head (keep + 1)).length ≤ keep then
    some (head, (fpChain head (keep + 1)).length)
  else
    (pyIdx (fpChain head (keep + 1)) ((keep : Int) - 1)).map (fun oldest =>
      (cgLookupD
        (rewriteLoop [(oldest, CommitG.mk [] oldest.message oldest.treeData)]
          ((fpChain head (keep + 1)).take (keep - 1)).reverse)
        head head, keep))

/-! ### Chain lemmas -/

theorem fpCount_pos : (c : CommitG) → 1 ≤ fpCount c
  | .mk [] _ _ => le_refl 1
  | .mk (_ :: _) _ _ => by simp [fpCount]

theorem fpMessages_length : (c : CommitG) → (fpMessages c).length = fpCount c
  | .mk [] _ _ => by simp [fpMessages, fpCount]
  | .mk (p :: _) m t => by
    simp [fpMessages, fpCount, fpMessages_length p, Nat.add_comm]

theorem fpChain_length (fuel : Nat) : ∀ c : CommitG,
    (fpChain c fuel).length = min fuel (fpCount c) := by
  induction fuel with
  | zero => intro c; simp [fpChain]
  | succ fuel ih =>
    intro c
    cases c with
    | mk ps m t =>
      cases ps with
      | nil =>
        simp only [fpChain, CommitG.parents, List.length_cons, List.length_nil, fpCount]
        omega
      | cons p rest =>
        simp only [fpChain, CommitG.parents, List.length_cons, fpCount, ih p]
        omega

theorem fpChain_take (fuel : Nat) : ∀ (c : CommitG) (m : Nat),
    (fpChain c fuel).take m = fpChain c (min m fuel) := by
  induction fuel with
  | zero => intro c m; simp [fpChain]
  | succ fuel ih =>
    intro c m
    cases m with
    | zero => simp [fpChain]
    | succ m =>
      have hmin : min (m + 1) (fuel + 1) = min m fuel + 1 := Nat.succ_min_succ m fuel
      rw [hmin]
      cases c with
      | mk ps msg t =>
        cases ps with
        | nil => simp [fpChain]
        | cons p rest =>
          simp only [fpChain, CommitG.parents, List.take_succ_cons, ih p m]

theorem fpChain_map_message (fuel : Nat) : ∀ c : CommitG,
    (fpChain c fuel).map CommitG.message = (fpMessages c).take fuel := by
  induction fuel with
  | zero => intro c; simp [fpChain]
  | succ fuel ih =>
    intro c
    cases c with
    | mk ps m t =>
      cases ps with
      | nil => simp [fpChain, fpMessages]
      | cons p rest => simp [fpChain, fpMessages, ih p]

theorem fpChain_cons (c : CommitG) (fuel : Nat) :
    ∃ tail, fpChain c (fuel + 1) = c :: tail :=
  ⟨_, rfl⟩

/-- The processed prefix is linked backwards: each element's first parent is
the previously processed element (or the anchor for the first). -/
def RevChained : CommitG → List CommitG → Prop
  | _, [] => True
  | a, x :: rest => x.parents.head? = some a ∧ RevChained x rest

theorem getLastD_reverse {α : Type} (l : List α) (d : α) :
    l.reverse.getLastD d = l.headD d := by
  cases l with
  | nil => rfl
  | cons x t =>
    rw [List.getLastD_eq_getLast?, List.getLast?_reverse]
    rfl

theorem revchained_append : ∀ (l : List CommitG) (a x : CommitG),
    RevChained a l → x.parents.head? = some (l.getLastD a) →
    RevChained a (l ++ [x]) := by
  intro l
  induction l with
  | nil =>
    intro a x _ hx
    exact ⟨hx, trivial⟩
  | cons y t ih =>
    intro a x h hx
    obtain ⟨h1, h2⟩ := h
    refine ⟨h1, ih y x h2 ?_⟩
    rwa [List.getLastD_cons] at hx

theorem revchained_fpChain : ∀ (m : Nat) (c a : CommitG),
    (fpChain c (m + 1)).get? m = some a →
    RevChained a ((fpChain c m).reverse) := by
  intro m
  induction m with
  | zero =>
    intro c a _
    show True
    trivial
  | succ m ih =>
    intro c a h
    cases c with
    | mk ps msg t =>
      cases ps with
      | nil => simp [fpChain] at h
      | cons p rest =>
        simp only [fpChain, CommitG.parents, List.get?_cons_succ] at h
        have hrec := ih p a h
        show RevChained a ((fpChain (CommitG.mk (p :: rest) msg t) (m + 1)).reverse)
        simp only [fpChain, CommitG.parents, List.reverse_cons]
        apply revchained_append _ _ _ hrec
        rw [getLastD_reverse]
        simp only [CommitG.parents, List.head?_cons, Option.some.injEq]
        cases hm : m with
        | zero =>
          subst hm
          simp only [fpChain, List.get?_cons_zero, Option.some.injEq] at h
          simp [fpChain, h]
        | succ m2 =>
          simp [fpChain]

theorem rewriteLoop_spec :
    ∀ (process : List CommitG) (a d : CommitG) (m : List (CommitG × CommitG)),
      RevChained a process →
      ∃ D rest, rewriteLoop ((a, d) :: m) process = (process.getLastD a, D) :: rest ∧
        fpCount D = fpCount d + process.length ∧
        fpMessages D = (process.map CommitG.message).reverse ++ fpMessages d := by
  intro process
  induction process with
  | nil =>
    intro a d m _
    exact ⟨d, m, rfl, by simp, by simp⟩
  | cons x rest ih =>
    intro a d m h
    simp only [RevChained] at h
    obtain ⟨h1, h2⟩ := h
    cases x with
    | mk ps msg t =>
      simp only [CommitG.parents] at h1
      cases ps with
      | nil => simp at h1
      | cons y tl =>
        simp only [List.head?_cons, Option.some.injEq] at h1
        subst h1
        have hx' : remapCommit ((y, d) :: m) (CommitG.mk (y :: tl) msg t) =
            CommitG.mk (d :: tl.map (fun p => cgLookupD ((y, d) :: m) p p)) msg t := by
          simp [remapCommit, cgLookupD, cgLookup]
        obtain ⟨D, rest2, hl, hc, hmsg⟩ :=
          ih (CommitG.mk (y :: tl) msg t)
            (CommitG.mk (d :: tl.map (fun p => cgLookupD ((y, d) :: m) p p)) msg t)
            ((y, d) :: m) h2
        refine ⟨D, rest2, ?_, ?_, ?_⟩
        · simp only [rewriteLoop, hx']
          rw [hl, List.getLastD_cons]
        · rw [hc]
          simp only [fpCount, List.length_cons]
          omega
        · rw [hmsg]
          simp only [fpMessages, List.map_cons, CommitG.message, List.reverse_cons,
            List.append_assoc, List.singleton_append]

/-- Claim C4 (amended to `k ≥ 1`): for a repository whose first-parent chain
from HEAD is longer than `k ≥ 1`, the native graft strategy returns `k`, and
the new HEAD's first-parent chain has count at most `k` (exactly `k`) with
the `k` most recent messages unchanged and in the same order. -/
theorem c4_truncate_native_graft (head : CommitG) (k : Nat) (hk1 : 1 ≤ k)
    (hkn : k < fpCount head) :
    ∃ newHead, truncate_via_dulwich head k = some (newHead, k) ∧
      fpCount newHead ≤ k ∧
      fpMessages newHead = (fpMessages head).take k := by
  have hlen : (fpChain head (k + 1)).length = k + 1 := by
    rw [fpChain_length]; omega
  have hlt : k - 1 < (fpChain head (k + 1)).length := by omega
  obtain ⟨anchor, hanchor⟩ : ∃ anchor, (fpChain head (k + 1)).get? (k - 1) = some anchor :=
    ⟨_, List.get?_eq_get hlt⟩
  have htake : (fpChain head (k + 1)).take (k - 1) = fpChain head (k - 1) := by
    rw [fpChain_take]
    congr 1
    omega
  have hchk : fpChain head k = (fpChain head (k + 1)).take k := by
    rw [fpChain_take]
    congr 1
    omega
  have hrc : RevChained anchor ((fpChain head (k - 1)).reverse) := by
    apply revchained_fpChain
    have hk' : k - 1 + 1 = k := by omega
    rw [hk', hchk, List.get?_take (by omega : k - 1 < k)]
    exact hanchor
  obtain ⟨D, rest, hloop, hcount, hmsgs⟩ :=
    rewriteLoop_spec ((fpChain head (k - 1)).reverse) anchor
      (CommitG.mk [] anchor.message anchor.treeData) [] hrc
  have hhead0 : (fpChain head (k + 1)).get? 0 = some head := by
    simp [fpChain]
  have hlast : ((fpChain head (k - 1)).reverse).getLastD anchor = head := by
    rw [getLastD_reverse]
    by_cases hk : k = 1
    · have hk0 : k - 1 = 0 := by omega
      rw [hk0]
      have hanch : anchor = head := by
        rw [hk0] at hanchor
        rw [hhead0] at hanchor
        exact (Option.some.inj hanchor).symm
      simp [fpChain, hanch]
    · have hm2 : k - 1 = (k - 2) + 1 := by omega
      rw [hm2]
      simp [fpChain]
  have hplen : ((fpChain head (k - 1)).reverse).length = k - 1 := by
    rw [List.length_reverse, fpChain_length]
    omega
  have hmsg_anchor : (fpMessages head).get? (k - 1) = some anchor.message := by
    have h1 : ((fpChain head (k + 1)).map CommitG.message).get? (k - 1) =
        some anchor.message := by
      rw [List.get?_map, hanchor]
      rfl
    rw [fpChain_map_message, List.get?_take (by omega : k - 1 < k + 1)] at h1
    exact h1
  refine ⟨D, ?_, ?_, ?_⟩
  · unfold truncate_via_dulwich
    rw [if_neg (by omega : ¬ ((fpChain head (k + 1)).length ≤ k))]
    have hpy : pyIdx (fpChain head (k + 1)) ((k : Int) - 1) = some anchor := by
      unfold pyIdx
      rw [if_neg (by omega : ¬ ((k : Int) - 1 < 0))]
      have h2 : ((k : Int) - 1).toNat = k - 1 := by omega
      rw [h2]
      exact hanchor
    rw [hpy, Option.map_some', htake, hloop, hlast]
    simp [cgLookupD, cgLookup]
  · rw [hcount, hplen]
    simp only [fpCount]
    omega
  · rw [hmsgs]
    have hrev : (((fpChain head (k - 1)).reverse).map CommitG.message).reverse =
        (fpChain head (k - 1)).map CommitG.message := by
      rw [List.map_reverse, List.reverse_reverse]
    rw [hrev, fpChain_map_message]
    have horph : fpMessages (CommitG.mk [] anchor.message anchor.treeData) =
        [anchor.message] := rfl
    rw [horph]
    have hk' : k = (k - 1) + 1 := by omega
    conv_rhs => rw [hk']
    rw [List.take_succ]
    rw [List.get?_eq_getElem?] at hmsg_anchor
    rw [hmsg_anchor]
    rfl

/-- Witness for C4 at a concrete three-commit chain, keeping two. -/
theorem c4_truncate_native_graft_witness :
    1 ≤ 2 ∧
    2 < fpCount (CommitG.mk [CommitG.mk [CommitG.mk [] "a" []] "b" []] "c" []) ∧
    (∃ newHead,
      truncate_via_dulwich
        (CommitG.mk [CommitG.mk [CommitG.mk [] "a" []] "b" []] "c" []) 2 =
        some (newHead, 2) ∧
      fpCount newHead ≤ 2 ∧
      fpMessages newHead =
        (fpMessages (CommitG.mk [CommitG.mk [CommitG.mk [] "a" []] "b" []] "c" [])).take 2) :=
  ⟨by decide, by decide,
   c4_truncate_native_graft (CommitG.mk [CommitG.mk [CommitG.mk [] "a" []] "b" []] "c" [])
     2 (by decide) (by decide)⟩

/-- Counterexample for C4 as stated: with `keep_count = 0` and a two-commit
chain (`n = 2 > 0 = k`), `chain[keep_count - 1]` is Python `chain[-1]`, the
HEAD commit itself; it is orphaned and becomes the new HEAD, so one commit
remains — the resulting first-parent count is `1 > 0 = k`, violating
`commit_count() <= k`, while the function still returns `0`. -/
theorem c4_counterexample_keep_zero :
    fpCount (CommitG.mk [CommitG.mk [] "m1" []] "m2" []) = 2 ∧
    truncate_via_dulwich (CommitG.mk [CommitG.mk [] "m1" []] "m2" []) 0 =
      some (CommitG.mk [] "m2" [], 0) ∧
    fpCount (CommitG.mk [] "m2" []) = 1 ∧ ¬ (1 ≤ 0) :=
  ⟨rfl, rfl, rfl, by decide⟩

/-! ## Repository status and pending changes
(src/aiocortex/git/manager.py `_get_pending_changes_sync`)

`porcelain.status` is dulwich library code; it is modelled from git
semantics over the triple (HEAD tree, index, worktree): staged changes
compare the index against HEAD, unstaged changes compare the worktree
against the index (tracked files only), untracked files are worktree files
absent from the index. -/

structure GitStatus where
  stagedAdd : List String
  stagedDelete : List String
  stagedModify : List String
  unstaged : List String
  untracked : List String

/-- Model of dulwich `porcelain.status` on (HEAD tree, index, worktree). -/
def computeStatus (headTree index worktree : FSL) : GitStatus where
  stagedAdd := (index.filter (fun e => (fsGet headTree e.1).isNone)).map (fun e => e.1)
  stagedDelete := (headTree.filter (fun e => (fsGet index e.1).isNone)).map (fun e => e.1)
  stagedModify := (index.filter (fun e =>
    match fsGet headTree e.1 with
    | none => false
    | some v => v ≠ e.2)).map (fun e => e.1)
  unstaged := (index.filter (fun e => fsGet worktree e.1 ≠ some e.2)).map (fun e => e.1)
  untracked := (worktree.filter (fun e => (fsGet index e.1).isNone)).map (fun e => e.1)

structure PendingChangesR where
  hasChanges : Bool
  filesModified : List String
  filesAdded : List String
  filesDeleted : List String

/-- The `if path_str not in files: files.append(path_str)` loops of
`_get_pending_changes_sync`. -/
def dedupAppend (acc : List String) (xs : List String) : List String :=
  xs.foldl (fun acc p => if acc.contains p then acc else acc ++ [p]) acc

/-- Embedding of the list assembly in `_get_pending_changes_sync`: staged
adds/deletes/modifies are taken as-is, unstaged paths are appended to
`files_modified` if not already present, untracked paths are appended to
`files_added` if not already present, and `has_changes` is the truthiness of
the three lists. -/
def buildPendingChanges (st : GitStatus) : PendingChangesR where
  hasChanges := !((dedupAppend st.stagedModify st.unstaged).isEmpty &&
    (dedupAppend st.stagedAdd st.untracked).isEmpty && st.stagedDelete.isEmpty)
  filesModified := dedupAppend st.stagedModify st.unstaged
  filesAdded := dedupAppend st.stagedAdd st.untracked
  filesDeleted := st.stagedDelete

theorem mem_dedupAppend (xs : List String) : ∀ (acc : List String) (p : String),
    p ∈ dedupAppend acc xs ↔ p ∈ acc ∨ p ∈ xs := by
  induction xs with
  | nil => intro acc p; simp [dedupAppend]
  | cons x xs ih =>
    intro acc p
    show p ∈ dedupAppend (if acc.contains x then acc else acc ++ [x]) xs ↔ _
    rw [ih]
    by_cases hc : acc.contains x
    · rw [if_pos hc]
      have hx : x ∈ acc := List.elem_iff.mp hc
      constructor
      · rintro (h | h)
        · exact Or.inl h
        · exact Or.inr (List.mem_cons_of_mem x h)
      · rintro (h | h)
        · exact Or.inl h
        · rcases List.mem_cons.mp h with rfl | h
          · exact Or.inl hx
          · exact Or.inr h
    · rw [if_neg hc]
      simp only [List.mem_append, List.mem_singleton, List.mem_cons]
      tauto

theorem fsGet_isSome_of_mem : ∀ (l : FSL) (e : String × String), e ∈ l →
    (fsGet l e.1).isSome = true := by
  intro l
  induction l with
  | nil => intro e h; simp at h
  | cons x rest ih =>
    intro e h
    rcases List.mem_cons.mp h with rfl | h
    · simp [fsGet]
    · simp only [fsGet]
      by_cases hx : x.1 = e.1
      · simp [hx]
      · simp only [hx, if_false]
        exact ih e h

theorem notEmptyTriple_iff (A B C : List String) :
    ((!(A.isEmpty && B.isEmpty && C.isEmpty)) = true) ↔ (A ≠ [] ∨ B ≠ [] ∨ C ≠ []) := by
  cases A <;> cases B <;> cases C <;> simp [List.isEmpty]

/-- Counterexample for C9 as stated: with an empty HEAD, an index staging
`f`, and a worktree where `f` was modified again (a state `get_pending_changes`
reaches because `get_diff` stages the worktree without committing), the path
`f` appears in both `files_added` (staged add) and `files_modified`
(unstaged), so the three sets are not pairwise disjoint. -/
theorem c9_counterexample_added_and_modified :
    "f" ∈ (buildPendingChanges (computeStatus [] [("f", "1")] [("f", "2")])).filesAdded ∧
    "f" ∈ (buildPendingChanges (computeStatus [] [("f", "1")] [("f", "2")])).filesModified := by
  decide

/-- Claim C9 (amended): `has_changes` is true iff one of the three path lists
is non-empty, and `files_modified` is always disjoint from `files_deleted`;
full pairwise disjointness holds whenever the index coincides with the HEAD
tree — the state in which the manager queries status, absent a preceding
`get_diff`. -/
theorem c9_pending_changes_amended (ht ix wt : FSL) :
    ((buildPendingChanges (computeStatus ht ix wt)).hasChanges = true ↔
      ((buildPendingChanges (computeStatus ht ix wt)).filesModified ≠ [] ∨
       (buildPendingChanges (computeStatus ht ix wt)).filesAdded ≠ [] ∨
       (buildPendingChanges (computeStatus ht ix wt)).filesDeleted ≠ [])) ∧
    List.Disjoint (buildPendingChanges (computeStatus ht ix wt)).filesModified
      (buildPendingChanges (computeStatus ht ix wt)).filesDeleted ∧
    (List.Disjoint (buildPendingChanges (computeStatus ht ht wt)).filesAdded
        (buildPendingChanges (computeStatus ht ht wt)).filesModified ∧
      List.Disjoint (buildPendingChanges (computeStatus ht ht wt)).filesAdded
        (buildPendingChanges (computeStatus ht ht wt)).filesDeleted ∧
      List.Disjoint (buildPendingChanges (computeStatus ht ht wt)).filesModified
        (buildPendingChanges (computeStatus ht ht wt)).filesDeleted) := by
  have hmodkey : ∀ (ix2 : FSL) (p : String),
      p ∈ (buildPendingChanges (computeStatus ht ix2 wt)).filesModified →
      (fsGet ix2 p).isSome = true := by
    intro ix2 p hp
    have hp2 : p ∈ dedupAppend (computeStatus ht ix2 wt).stagedModify
        (computeStatus ht ix2 wt).unstaged := hp
    rw [mem_dedupAppend] at hp2
    rcases hp2 with h | h <;>
      (simp only [computeStatus, List.mem_map, List.mem_filter] at h
       obtain ⟨e, ⟨hm, _⟩, hpe⟩ := h
       rw [← hpe]
       exact fsGet_isSome_of_mem ix2 e hm)
  have hdelkey : ∀ (ix2 : FSL) (p : String),
      p ∈ (buildPendingChanges (computeStatus ht ix2 wt)).filesDeleted →
      fsGet ix2 p = none := by
    intro ix2 p hp
    have hp2 : p ∈ (computeStatus ht ix2 wt).stagedDelete := hp
    simp only [computeStatus, List.mem_map, List.mem_filter] at hp2
    obtain ⟨e, ⟨_, hn⟩, hpe⟩ := hp2
    rw [← hpe]
    rw [Option.isNone_iff_eq_none] at hn
    exact hn
  refine ⟨notEmptyTriple_iff _ _ _, ?_, ?_⟩
  · intro p hmod hdel
    have h1 := hmodkey ix p hmod
    have h2 := hdelkey ix p hdel
    rw [h2] at h1
    simp at h1
  · have haddkey : ∀ p, p ∈ (buildPendingChanges (computeStatus ht ht wt)).filesAdded →
        fsGet ht p = none := by
      intro p hp
      have hp2 : p ∈ dedupAppend (computeStatus ht ht wt).stagedAdd
          (computeStatus ht ht wt).untracked := hp
      rw [mem_dedupAppend] at hp2
      rcases hp2 with h | h
      · exfalso
        simp only [computeStatus, List.mem_map, List.mem_filter] at h
        obtain ⟨e, ⟨hm, hn⟩, hpe⟩ := h
        have hs := fsGet_isSome_of_mem ht e hm
        rw [Option.isNone_iff_eq_none] at hn
        rw [hn] at hs
        simp at hs
      · simp only [computeStatus, List.mem_map, List.mem_filter] at h
        obtain ⟨e, ⟨_, hn⟩, hpe⟩ := h
        rw [← hpe]
        rw [Option.isNone_iff_eq_none] at hn
        exact hn
    refine ⟨?_, ?_, ?_⟩
    · intro p hpa hpm
      have h1 := haddkey p hpa
      have h2 := hmodkey ht p hpm
      rw [h1] at h2
      simp at h2
    · intro p hpa hpd
      have h1 := haddkey p hpa
      have h2 := hdelkey ht p hpd
      have h3 : ∀ e : String × String, e ∈ ht → ¬ ((fsGet ht e.1).isNone = true) := by
        intro e he hn
        have hs := fsGet_isSome_of_mem ht e he
        rw [Option.isNone_iff_eq_none] at hn
        rw [hn] at hs
        simp at hs
      have hp2 : p ∈ (computeStatus ht ht wt).stagedDelete := hpd
      simp only [computeStatus, List.mem_map, List.mem_filter] at hp2
      obtain ⟨e, ⟨hm, hn⟩, _⟩ := hp2
      exact h3 e hm hn
    · intro p hpm hpd
      have h1 := hmodkey ht p hpm
      have h2 := hdelkey ht p hpd
      rw [h2] at h1
      simp at h1

/-! ## Manager commit flow (src/aiocortex/git/manager.py `_commit_changes_sync`)

State of one `GitManager`: the live directory, the shadow worktree, the git
index (equal to the last committed tree except when `_get_diff_sync` has
staged the worktree), HEAD, and the configuration knobs.  `truncFails` is the
oracle for whether `truncate_history` raises (its exception is caught and
logged, leaving the state as it was). -/

structure MState where
  config : FSL
  shadow : FSL
  index : FSL
  head : Option CommitG
  maxBackups : Int
  autoCommit : Bool
  shadowDirName : String
  truncFails : Bool

/-- `bool(staged add/delete/modify or unstaged or untracked)` in `_is_dirty`. -/
def isDirtyStatus (st : GitStatus) : Bool :=
  !st.stagedAdd.isEmpty || !st.stagedDelete.isEmpty || !st.stagedModify.isEmpty ||
  !st.unstaged.isEmpty || !st.untracked.isEmpty

/-- Tree of HEAD; an unborn HEAD has the empty tree. -/
def headTreeOf : Option CommitG → FSL
  | none => []
  | some c => c.treeData

/-- Parents of a new commit: `[HEAD]`, or none for the initial commit. -/
def commitParents : Option CommitG → List CommitG
  | none => []
  | some c => [c]

/-- Embedding of `_commit_changes_sync`: sync live to shadow; return `None`
when not dirty or when auto-commit is off and not forced; otherwise stage
everything (index becomes the worktree snapshot), commit (default message is
timestamped), and, if the first-parent count has reached `max_backups`,
invoke truncation keeping `max(10, max_backups - 10)` commits — a truncation
failure is caught and does not affect the returned commit.  The result is
(new state, committed commit if any, keep-count passed to `truncate_history`
if invoked). -/
def commit_changes_sync (st : MState) (message : Option String) (now : String)
    (force : Bool) : MState × Option CommitG × Option Int :=
  if !(isDirtyStatus (computeStatus (headTreeOf st.head) st.index
      (sync_config_to_shadow st.config st.shadow st.shadowDirName))) then
    ({ st with shadow := sync_config_to_shadow st.config st.shadow st.shadowDirName },
      none, none)
  else if !st.autoCommit && !force then
    ({ st with shadow := sync_config_to_shadow st.config st.shadow st.shadowDirName },
      none, none)
  else
    if (fpCount (CommitG.mk (commitParents st.head)
        (message.getD ("Auto-commit by Cortex at " ++ now))
        (sync_config_to_shadow st.config st.shadow st.shadowDirName)) : Int) ≥
        st.maxBackups then
      if st.truncFails then
        ({ st with
            shadow := sync_config_to_shadow st.config st.shadow st.shadowDirName
            index := sync_config_to_shadow st.config st.shadow st.shadowDirName
            head := some (CommitG.mk (commitParents st.head)
              (message.getD ("Auto-commit by Cortex at " ++ now))
              (sync_config_to_shadow st.config st.shadow st.shadowDirName)) },
          some (CommitG.mk (commitParents st.head)
            (message.getD ("Auto-commit by Cortex at " ++ now))
            (sync_config_to_shadow st.config st.shadow st.shadowDirName)),
          some (max 10 (st.maxBackups - 10)))
      else
        ({ st with
            shadow := sync_config_to_shadow st.config st.shadow st.shadowDirName
            index := sync_config_to_shadow st.config st.shadow st.shadowDirName
            head :=
              (match truncate_via_dulwich
                (CommitG.mk (commitParents st.head)
                  (message.getD ("Auto-commit by Cortex at " ++ now))
                  (sync_config_to_shadow st.config st.shadow st.shadowDirName))
                (max 10 (st.maxBackups - 10)).toNat with
              | some r => some r.1
              | none => some (CommitG.mk (commitParents st.head)
                  (message.getD ("Auto-commit by Cortex at " ++ now))
                  (sync_config_to_shadow st.config st.shadow st.shadowDirName))) },
          some (CommitG.mk (commitParents st.head)
            (message.getD ("Auto-commit by Cortex at " ++ now))
            (sync_config_to_shadow st.config st.shadow st.shadowDirName)),
          some (max 10 (st.maxBackups - 10)))
    else
      ({ st with
          shadow := sync_config_to_shadow st.config st.shadow st.shadowDirName
          index := sync_config_to_shadow st.config st.shadow st.shadowDirName
          head := some (CommitG.mk (commitParents st.head)
            (message.getD ("Auto-commit by Cortex at " ++ now))
            (sync_config_to_shadow st.config st.shadow st.shadowDirName)) },
        some (CommitG.mk (commitParents st.head)
          (message.getD ("Auto-commit by Cortex at " ++ now))
          (sync_config_to_shadow st.config st.shadow st.shadowDirName)),
        none)

/-- Claim C5: whenever `_commit_changes_sync` returns a commit, truncation is
invoked with keep count `max(10, max_backups - 10)` iff the post-commit
first-parent count reached `max_backups` (and not invoked below it), and the
returned commit is the same whether or not truncation fails. -/
theorem commit_changes_keep_characterization (st : MState) (message : Option String)
    (now : String) (force : Bool) :
    (commit_changes_sync st message now force).2.2 =
      match (commit_changes_sync st message now force).2.1 with
      | none => none
      | some c => if (fpCount c : Int) ≥ st.maxBackups then
          some (max 10 (st.maxBackups - 10)) else none := by
  unfold commit_changes_sync
  split
  · rfl
  · split
    · rfl
    · split
      · split
        · rename_i h3 _
          simp only [Prod.snd, Prod.fst]
          rw [if_pos h3]
        · rename_i h3 _
          simp only [Prod.snd, Prod.fst]
          rw [if_pos h3]
      · rename_i h3
        simp only [Prod.snd, Prod.fst]
        rw [if_neg h3]

theorem c5_commit_cleanup_trigger (st : MState) (message : Option String)
    (now : String) (force : Bool) :
    (∀ c, (commit_changes_sync st message now force).2.1 = some c →
      (((fpCount c : Int) ≥ st.maxBackups →
        (commit_changes_sync st message now force).2.2 =
          some (max 10 (st.maxBackups - 10))) ∧
       ((fpCount c : Int) < st.maxBackups →
        (commit_changes_sync st message now force).2.2 = none))) ∧
    (commit_changes_sync { st with truncFails := true } message now force).2.1 =
      (commit_changes_sync { st with truncFails := false } message now force).2.1 := by
  constructor
  · intro c hc
    rw [commit_changes_keep_characterization, hc]
    constructor
    · intro hge
      exact if_pos hge
    · intro hlt
      exact if_neg (not_le.mpr hlt)
  · by_cases h1 : (isDirtyStatus (computeStatus (headTreeOf st.head) st.index
        (sync_config_to_shadow st.config st.shadow st.shadowDirName))) = true
    · by_cases h2 : (!st.autoCommit && !force) = true
      · simp [commit_changes_sync, h1, h2]
      · by_cases h3 : (fpCount (CommitG.mk (commitParents st.head)
            (message.getD ("Auto-commit by Cortex at " ++ now))
            (sync_config_to_shadow st.config st.shadow st.shadowDirName)) : Int) ≥
            st.maxBackups
        · simp [commit_changes_sync, h1, h2, h3]
        · simp [commit_changes_sync, h1, h2, h3]
    · simp [commit_changes_sync, h1]

/-- Witness for C5 at a concrete state: a fresh manager with one live file
and `max_backups = 1`, so the first commit reaches the cap and triggers
truncation with keep count `max(10, 1 - 10) = 10`. -/
theorem c5_commit_cleanup_trigger_witness :
    (commit_changes_sync
        ⟨[("a.yaml", "x")], [], [], none, 1, true, "cortex_git", false⟩
        (some "m") "t" false).2.1 =
      some (CommitG.mk [] "m" [("a.yaml", "x")]) ∧
    (commit_changes_sync
        ⟨[("a.yaml", "x")], [], [], none, 1, true, "cortex_git", false⟩
        (some "m") "t" false).2.2 = some 10 := by
  constructor
  · rfl
  · have h := (c5_commit_cleanup_trigger
      ⟨[("a.yaml", "x")], [], [], none, 1, true, "cortex_git", false⟩
      (some "m") "t" false).1
      (CommitG.mk [] "m" [("a.yaml", "x")]) (by rfl)
    have h2 := h.1 (by decide)
    simpa using h2

/-! ## Transactions (src/aiocortex/git/manager.py `_commit_transaction_sync`
and `_rollback_failed_transaction_sync`)

Operation paths are assumed canonical relative paths, so
`_resolve_config_path` (validated before apply) acts as the identity and a
path names the live file directly; the per-transaction backup directory is
the map `backupStore` keyed by the relative path
(`backup_path.relative_to(backup_dir).as_posix()` recovers exactly that key).
An exception while applying operation `j` is modelled by the oracle
`failAt = some (j, phaseB)`: `phaseB = false` fails before any effect of the
operation (e.g. in `_resolve_config_path` or the backup copy), `phaseB =
true` fails after the backup bookkeeping but before the live mutation (e.g.
in `write_text`/`unlink`). -/

inductive TxOpKind where
  | write
  | delete
  deriving DecidableEq

structure TxOp where
  op : TxOpKind
  path : String
  content : Option String

structure TxApplyState where
  live : FSL
  backupFiles : List String
  createdFiles : List String
  backupStore : FSL
  touched : List String

/-- `rollback_metadata.touched_paths.append(operation.path)`. -/
def markTouched (s : TxApplyState) (o : TxOp) : TxApplyState :=
  { s with touched := s.touched ++ [o.path] }

/-- The backup bookkeeping of one loop iteration: if the target exists, copy
it into the backup directory and record the backup; else, if the operation
is a write, record the path as newly created. -/
def backupPhase (s : TxApplyState) (o : TxOp) : TxApplyState :=
  match fsGet s.live o.path with
  | some v =>
    { s with
      backupStore := fsSet s.backupStore o.path v
      backupFiles := s.backupFiles ++ [o.path] }
  | none =>
    if o.op = TxOpKind.write then
      { s with createdFiles := s.createdFiles ++ [o.path] }
    else s

/-- The live mutation of one loop iteration: a write writes
`operation.content or ""`; a delete unlinks the target if it exists. -/
def mutatePhase (s : TxApplyState) (o : TxOp) : TxApplyState :=
  if o.op = TxOpKind.write then
    { s with live := fsSet s.live o.path (o.content.getD "") }
  else
    match fsGet s.live o.path with
    | some _ => { s with live := fsDel s.live o.path }
    | none => s

def applyStep (s : TxApplyState) (o : TxOp) : TxApplyState :=
  mutatePhase (backupPhase (markTouched s o) o) o

/-- The `for operation in transaction.operations` loop with the failure
oracle; returns the reached state and whether the loop completed. -/
def applyLoop : TxApplyState → List TxOp → Option (Nat × Bool) → Nat → TxApplyState × Bool
  | s, [], _, _ => (s, true)
  | s, o :: rest, failAt, i =>
    match failAt with
    | some (j, phaseB) =>
      if i = j then
        if phaseB then (backupPhase (markTouched s o) o, false)
        else (s, false)
      else applyLoop (applyStep s o) rest (some (j, phaseB)) (i + 1)
    | none => applyLoop (applyStep s o) rest none (i + 1)

/-- Embedding of `_rollback_failed_transaction_sync`: first delete every
recorded created file that exists, then restore every recorded backup whose
backup copy exists. -/
def rollback_failed_transaction_sync (s : TxApplyState) : FSL :=
  s.backupFiles.foldl
    (fun lv p => match fsGet s.backupStore p with
      | none => lv
      | some v => fsSet lv p v)
    (s.createdFiles.foldl
      (fun lv p => match fsGet lv p with
        | some _ => fsDel lv p
        | none => lv) s.live)

/-- Embedding of the apply/compensate core of `_commit_transaction_sync`
(after validation passed): apply the staged operations; on success the
status becomes `committed`; on an exception, run the compensating rollback
and mark the transaction `failed`. -/
def commit_transaction_sync (live : FSL) (ops : List TxOp)
    (failAt : Option (Nat × Bool)) : FSL × String :=
  match applyLoop ⟨live, [], [], [], []⟩ ops failAt 0 with
  | (s, true) => (s.live, "committed")
  | (s, false) => (rollback_failed_transaction_sync s, "failed")

/-! ### Rollback closed form -/

theorem fsGet_delFold : ∀ (created : List String) (lv : FSL) (q : String),
    fsGet (created.foldl
      (fun lv p => match fsGet lv p with
        | some _ => fsDel lv p
        | none => lv) lv) q =
    if q ∈ created then none else fsGet lv q := by
  intro created
  induction created with
  | nil => intro lv q; simp
  | cons p rest ih =>
    intro lv q
    simp only [List.foldl_cons]
    rw [ih]
    by_cases hqr : q ∈ rest
    · simp [hqr]
    · have hm : (q ∈ p :: rest) ↔ q = p := by
        simp [List.mem_cons, hqr]
      by_cases hqp : q = p
      · simp only [hm.mpr hqp, if_true, hqr, if_false]
        rcases hlp : fsGet lv p with _ | v
        · rw [hqp, hlp]
        · rw [fsGet_del]
          simp [hqp]
      · have : ¬ (q ∈ p :: rest) := fun h => hqp (hm.mp h)
        simp only [this, if_false, hqr]
        rcases hlp : fsGet lv p with _ | v
        · rfl
        · rw [fsGet_del]
          simp [hqp]

theorem fsGet_resFold : ∀ (bf : List String) (lv : FSL) (bs : FSL) (q : String),
    fsGet (bf.foldl
      (fun lv p => match fsGet bs p with
        | none => lv
        | some v => fsSet lv p v) lv) q =
    if q ∈ bf ∧ (fsGet bs q).isSome then fsGet bs q else fsGet lv q := by
  intro bf
  induction bf with
  | nil => intro lv bs q; simp
  | cons p rest ih =>
    intro lv bs q
    simp only [List.foldl_cons]
    rw [ih]
    by_cases hrest : q ∈ rest ∧ (fsGet bs q).isSome
    · simp [hrest, List.mem_cons, hrest.1, hrest.2]
    · rw [if_neg hrest]
      by_cases hqp : q = p
      · subst hqp
        rcases hbs : fsGet bs q with _ | v
        · simp
        · rw [fsGet_set]
          simp
      · have hiff : ((q ∈ p :: rest) ∧ (fsGet bs q).isSome) ↔
            (q ∈ rest ∧ (fsGet bs q).isSome) := by
          simp only [List.mem_cons]
          constructor
          · rintro ⟨(h | h), hs⟩
            · exact absurd h hqp
            · exact ⟨h, hs⟩
          · rintro ⟨h, hs⟩
            exact ⟨Or.inr h, hs⟩
        rw [if_neg (fun h => hrest (hiff.mp h))]
        rcases hbs : fsGet bs p with _ | v
        · rfl
        · rw [fsGet_set]
          simp [hqp]

theorem fsGet_rollback (s : TxApplyState) (q : String) :
    fsGet (rollback_failed_transaction_sync s) q =
      if q ∈ s.backupFiles ∧ (fsGet s.backupStore q).isSome then fsGet s.backupStore q
      else if q ∈ s.createdFiles then none
      else fsGet s.live q := by
  unfold rollback_failed_transaction_sync
  rw [fsGet_resFold, fsGet_delFold]

/-- The invariant carried along the apply loop: compensating rollback of the
current state restores the pre-transaction live directory exactly, and every
path not yet recorded as created or backed up still has its pre-transaction
content. -/
def RollbackOk (live0 : FSL) (s : TxApplyState) : Prop :=
  (∀ q, fsGet (rollback_failed_transaction_sync s) q = fsGet live0 q) ∧
  (∀ q, q ∉ s.createdFiles → q ∉ s.backupFiles → fsGet s.live q = fsGet live0 q)

theorem rollbackOk_markTouched (live0 : FSL) (s : TxApplyState) (o : TxOp)
    (h : RollbackOk live0 s) : RollbackOk live0 (markTouched s o) :=
  h

theorem backupPhase_ok (live0 : FSL) (s : TxApplyState) (o : TxOp)
    (h : RollbackOk live0 s) (hc : o.path ∉ s.createdFiles)
    (hb : o.path ∉ s.backupFiles) : RollbackOk live0 (backupPhase s o) := by
  rcases hlo : fsGet s.live o.path with _ | v
  · by_cases hop : o.op = TxOpKind.write
    · have hbp : backupPhase s o = { s with createdFiles := s.createdFiles ++ [o.path] } := by
        simp [backupPhase, hlo, hop]
      rw [hbp]
      constructor
      · intro q
        rw [fsGet_rollback]
        have hs := h.1 q
        rw [fsGet_rollback] at hs
        simp only []
        by_cases hq : q = o.path
        · subst hq
          rw [if_neg (fun hcontra => hb hcontra.1)]
          rw [if_pos (by simp)]
          rw [if_neg (fun hcontra => hb hcontra.1), if_neg hc] at hs
          rw [← hs, hlo]
        · have hmem : (q ∈ s.createdFiles ++ [o.path]) ↔ q ∈ s.createdFiles := by
            simp [List.mem_append, hq]
          by_cases hA : q ∈ s.backupFiles ∧ (fsGet s.backupStore q).isSome
          · rw [if_pos hA]
            rw [if_pos hA] at hs
            exact hs
          · rw [if_neg hA]
            rw [if_neg hA] at hs
            by_cases hC : q ∈ s.createdFiles
            · rw [if_pos (hmem.mpr hC)]
              rw [if_pos hC] at hs
              exact hs
            · rw [if_neg (fun hk => hC (hmem.mp hk))]
              rw [if_neg hC] at hs
              exact hs
      · intro q hq1 hq2
        simp only [] at hq1 hq2 ⊢
        exact h.2 q (fun hk => hq1 (List.mem_append_left _ hk)) hq2
    · have hbp : backupPhase s o = s := by
        simp [backupPhase, hlo, hop]
      rw [hbp]
      exact h
  · have hbp : backupPhase s o =
        { s with
          backupStore := fsSet s.backupStore o.path v
          backupFiles := s.backupFiles ++ [o.path] } := by
      simp [backupPhase, hlo]
    rw [hbp]
    constructor
    · intro q
      rw [fsGet_rollback]
      have hs := h.1 q
      rw [fsGet_rollback] at hs
      simp only []
      by_cases hq : q = o.path
      · subst hq
        rw [fsGet_set]
        simp only [if_pos rfl]
        rw [if_pos (by simp)]
        have hlive := h.2 o.path hc hb
        rw [← hlive, hlo]
        simp
      · rw [fsGet_set]
        simp only [hq, if_false]
        have hmem : (q ∈ s.backupFiles ++ [o.path]) ↔ q ∈ s.backupFiles := by
          simp [List.mem_append, hq]
        by_cases hA : q ∈ s.backupFiles ∧ (fsGet s.backupStore q).isSome
        · rw [if_pos ⟨hmem.mpr hA.1, hA.2⟩]
          rw [if_pos hA] at hs
          exact hs
        · rw [if_neg (fun hk => hA ⟨hmem.mp hk.1, hk.2⟩)]
          rw [if_neg hA] at hs
          exact hs
    · intro q hq1 hq2
      simp only [] at hq1 hq2 ⊢
      exact h.2 q hq1 (fun hk => hq2 (List.mem_append_left _ hk))

theorem mutatePhase_ok (live0 : FSL) (s : TxApplyState) (o : TxOp)
    (h : RollbackOk live0 s)
    (hrec : (fsGet s.live o.path = none ∧ o.op ≠ TxOpKind.write) ∨
      o.path ∈ s.createdFiles ∨
      (o.path ∈ s.backupFiles ∧ (fsGet s.backupStore o.path).isSome)) :
    RollbackOk live0 (mutatePhase s o) := by
  have hcore : ∀ (liveNew : FSL),
      (∀ q, q ≠ o.path → fsGet liveNew q = fsGet s.live q) →
      (o.path ∈ s.createdFiles ∨
        (o.path ∈ s.backupFiles ∧ (fsGet s.backupStore o.path).isSome)) →
      RollbackOk live0
        { s with live := liveNew } := by
    intro liveNew hsame hrec2
    constructor
    · intro q
      rw [fsGet_rollback]
      have hs := h.1 q
      rw [fsGet_rollback] at hs
      simp only []
      by_cases hq : q = o.path
      · subst hq
        rcases hrec2 with hC | hB
        · by_cases hA : o.path ∈ s.backupFiles ∧ (fsGet s.backupStore o.path).isSome
          · rw [if_pos hA]
            rw [if_pos hA] at hs
            exact hs
          · rw [if_neg hA, if_pos hC]
            rw [if_neg hA, if_pos hC] at hs
            exact hs
        · rw [if_pos hB]
          rw [if_pos hB] at hs
          exact hs
      · rw [hsame q hq]
        exact hs
    · intro q hq1 hq2
      simp only [] at hq1 hq2 ⊢
      by_cases hq : q = o.path
      · subst hq
        rcases hrec2 with hC | hB
        · exact absurd hC hq1
        · exact absurd hB.1 hq2
      · rw [hsame q hq]
        exact h.2 q hq1 hq2
  by_cases hop : o.op = TxOpKind.write
  · have hm : mutatePhase s o = { s with live := fsSet s.live o.path (o.content.getD "") } := by
      simp [mutatePhase, hop]
    rw [hm]
    apply hcore
    · intro q hq
      rw [fsGet_set]
      simp [hq]
    · rcases hrec with ⟨_, hne⟩ | hrest
      · exact absurd hop hne
      · exact hrest
  · rcases hlo : fsGet s.live o.path with _ | v
    · have hm : mutatePhase s o = s := by
        simp [mutatePhase, hop, hlo]
      rw [hm]
      exact h
    · have hm : mutatePhase s o = { s with live := fsDel s.live o.path } := by
        simp [mutatePhase, hop, hlo]
      rw [hm]
      apply hcore
      · intro q hq
        rw [fsGet_del]
        simp [hq]
      · rcases hrec with ⟨hnone, _⟩ | hrest
        · rw [hlo] at hnone
          exact absurd hnone (by simp)
        · exact hrest

theorem applyStep_ok (live0 : FSL) (s : TxApplyState) (o : TxOp)
    (h : RollbackOk live0 s) (hc : o.path ∉ s.createdFiles)
    (hb : o.path ∉ s.backupFiles) : RollbackOk live0 (applyStep s o) := by
  have h1 : RollbackOk live0 (backupPhase (markTouched s o) o) :=
    backupPhase_ok live0 (markTouched s o) o (rollbackOk_markTouched live0 s o h) hc hb
  apply mutatePhase_ok live0 _ o h1
  rcases hlo : fsGet s.live o.path with _ | v
  · by_cases hop : o.op = TxOpKind.write
    · right
      left
      have : backupPhase (markTouched s o) o =
          { markTouched s o with createdFiles := s.createdFiles ++ [o.path] } := by
        simp [backupPhase, markTouched, hlo, hop]
      rw [this]
      simp
    · left
      have : backupPhase (markTouched s o) o = markTouched s o := by
        simp [backupPhase, markTouched, hlo, hop]
      rw [this]
      exact ⟨hlo, hop⟩
  · right
    right
    have : backupPhase (markTouched s o) o =
        { markTouched s o with
          backupStore := fsSet s.backupStore o.path v
          backupFiles := s.backupFiles ++ [o.path] } := by
      simp [backupPhase, markTouched, hlo]
    rw [this]
    constructor
    · simp
    · rw [fsGet_set]
      simp

theorem applyStep_created (s : TxApplyState) (o : TxOp) :
    (applyStep s o).createdFiles = s.createdFiles ∨
    (applyStep s o).createdFiles = s.createdFiles ++ [o.path] := by
  unfold applyStep mutatePhase backupPhase markTouched
  rcases fsGet s.live o.path with _ | v <;>
    by_cases hop : o.op = TxOpKind.write <;>
    simp [hop] <;>
    rcases fsGet s.live o.path with _ | w <;> simp

theorem applyStep_backup (s : TxApplyState) (o : TxOp) :
    (applyStep s o).backupFiles = s.backupFiles ∨
    (applyStep s o).backupFiles = s.backupFiles ++ [o.path] := by
  unfold applyStep mutatePhase backupPhase markTouched
  rcases fsGet s.live o.path with _ | v <;>
    by_cases hop : o.op = TxOpKind.write <;>
    simp [hop] <;>
    rcases fsGet s.live o.path with _ | w <;> simp

theorem applyLoop_rollback_ok : ∀ (ops : List TxOp) (s : TxApplyState) (live0 : FSL)
    (i j : Nat) (phaseB : Bool),
    RollbackOk live0 s →
    (∀ o ∈ ops, o.path ∉ s.createdFiles ∧ o.path ∉ s.backupFiles) →
    (ops.map TxOp.path).Nodup →
    i ≤ j → j < i + ops.length →
    ∀ q, fsGet (rollback_failed_transaction_sync
      (applyLoop s ops (some (j, phaseB)) i).1) q = fsGet live0 q := by
  intro ops
  induction ops with
  | nil =>
    intro s live0 i j phaseB _ _ _ hij hlt
    simp at hlt
    omega
  | cons o rest ih =>
    intro s live0 i j phaseB h hfresh hnd hij hlt
    simp only [applyLoop]
    by_cases hieq : i = j
    · rw [if_pos hieq]
      cases phaseB with
      | true =>
        have := backupPhase_ok live0 (markTouched s o) o
          (rollbackOk_markTouched live0 s o h)
          (hfresh o (List.mem_cons_self o rest)).1
          (hfresh o (List.mem_cons_self o rest)).2
        exact this.1
      | false =>
        exact h.1
    · rw [if_neg hieq]
      have hstep := applyStep_ok live0 s o h
        (hfresh o (List.mem_cons_self o rest)).1
        (hfresh o (List.mem_cons_self o rest)).2
      simp only [List.map_cons, List.nodup_cons] at hnd
      apply ih (applyStep s o) live0 (i + 1) j phaseB hstep
      · intro o2 ho2
        have hf := hfresh o2 (List.mem_cons_of_mem o ho2)
        have hne : o2.path ≠ o.path := by
          intro hcontra
          apply hnd.1
          rw [← hcontra]
          exact List.mem_map_of_mem TxOp.path ho2
        constructor
        · rcases applyStep_created s o with hcr | hcr <;> rw [hcr]
          · exact hf.1
          · intro hk
            rcases List.mem_append.mp hk with hk | hk
            · exact hf.1 hk
            · exact hne (List.mem_singleton.mp hk)
        · rcases applyStep_backup s o with hbk | hbk <;> rw [hbk]
          · exact hf.2
          · intro hk
            rcases List.mem_append.mp hk with hk | hk
            · exact hf.2 hk
            · exact hne (List.mem_singleton.mp hk)
      · exact hnd.2
      · omega
      · simp only [List.length_cons] at hlt
        omega

theorem applyLoop_fails : ∀ (ops : List TxOp) (s : TxApplyState) (i j : Nat)
    (phaseB : Bool), i ≤ j → j < i + ops.length →
    (applyLoop s ops (some (j, phaseB)) i).2 = false := by
  intro ops
  induction ops with
  | nil =>
    intro s i j phaseB hij hlt
    simp at hlt
    omega
  | cons o rest ih =>
    intro s i j phaseB hij hlt
    simp only [applyLoop]
    by_cases hieq : i = j
    · rw [if_pos hieq]
      cases phaseB <;> rfl
    · rw [if_neg hieq]
      apply ih
      · omega
      · simp only [List.length_cons] at hlt
        omega

/-- Claim C1 (amended to operations on pairwise distinct paths): if applying
any staged operation raises, the compensating rollback restores every live
path to its pre-transaction content — files that existed before come back
from their backups, newly created files are deleted — and the transaction
status is persisted as `failed`. -/
theorem c1_transaction_rollback_atomic (live : FSL) (ops : List TxOp) (j : Nat)
    (phaseB : Bool) (hnd : (ops.map TxOp.path).Nodup) (hj : j < ops.length) :
    (commit_transaction_sync live ops (some (j, phaseB))).2 = "failed" ∧
    ∀ q, fsGet (commit_transaction_sync live ops (some (j, phaseB))).1 q =
      fsGet live q := by
  have hok : RollbackOk live ⟨live, [], [], [], []⟩ := by
    constructor
    · intro q
      rfl
    · intro q _ _
      rfl
  have hfresh : ∀ o ∈ ops, o.path ∉ ([] : List String) ∧ o.path ∉ ([] : List String) := by
    intro o _
    simp
  have hfail := applyLoop_fails ops ⟨live, [], [], [], []⟩ 0 j phaseB (by omega) (by omega)
  have hroll := applyLoop_rollback_ok ops ⟨live, [], [], [], []⟩ live 0 j phaseB
    hok hfresh hnd (by omega) (by omega)
  unfold commit_transaction_sync
  rcases happly : applyLoop ⟨live, [], [], [], []⟩ ops (some (j, phaseB)) 0 with ⟨s, ok⟩
  rw [happly] at hfail hroll
  simp only [] at hfail
  subst hfail
  exact ⟨rfl, hroll⟩

/-- Witness for the amended C1 at a concrete transaction: write a new file
`a`, overwrite existing `b`, then fail at the third operation (delete `c`)
before any of its effects; rollback removes `a` and restores `b`. -/
theorem c1_transaction_rollback_atomic_witness :
    (commit_transaction_sync [("b", "old"), ("c", "keep")]
        [⟨TxOpKind.write, "a", some "1"⟩, ⟨TxOpKind.write, "b", some "2"⟩,
         ⟨TxOpKind.delete, "c", none⟩] (some (2, false))).2 = "failed" ∧
    fsGet (commit_transaction_sync [("b", "old"), ("c", "keep")]
        [⟨TxOpKind.write, "a", some "1"⟩, ⟨TxOpKind.write, "b", some "2"⟩,
         ⟨TxOpKind.delete, "c", none⟩] (some (2, false))).1 "a" =
      fsGet [("b", "old"), ("c", "keep")] "a" ∧
    fsGet (commit_transaction_sync [("b", "old"), ("c", "keep")]
        [⟨TxOpKind.write, "a", some "1"⟩, ⟨TxOpKind.write, "b", some "2"⟩,
         ⟨TxOpKind.delete, "c", none⟩] (some (2, false))).1 "b" =
      fsGet [("b", "old"), ("c", "keep")] "b" := by
  have h := c1_transaction_rollback_atomic [("b", "old"), ("c", "keep")]
    [⟨TxOpKind.write, "a", some "1"⟩, ⟨TxOpKind.write, "b", some "2"⟩,
     ⟨TxOpKind.delete, "c", none⟩] 2 false (by decide) (by decide)
  exact ⟨h.1, h.2 "a", h.2 "b"⟩

/-- Counterexample for C1 as stated: two staged writes to the same fresh path
`a` followed by a failing third operation.  The second write backs up the
intermediate content written by the first, so rollback first deletes `a` (it
was recorded as created) but then restores it from that backup: afterwards
`a` exists with content `"1"` although it did not exist before the
transaction.  The status is still `failed`. -/
theorem c1_counterexample_duplicate_path :
    commit_transaction_sync []
        [⟨TxOpKind.write, "a", some "1"⟩, ⟨TxOpKind.write, "a", some "2"⟩,
         ⟨TxOpKind.write, "b", some "3"⟩] (some (2, false)) =
      ([("a", "1")], "failed") ∧
    fsGet ([] : FSL) "a" = none :=
  ⟨rfl, rfl⟩

/-! ## Restore from commit (src/aiocortex/git/manager.py
`_restore_files_from_commit_sync`)

A git tree object is a list of named entries, each a subtree or a blob.
`_walk_tree` writes matching blobs into the shadow worktree and collects
their paths; its `return` on a non-matching blob aborts the remaining
entries of the current level only (inner recursive calls return normally).
-/

inductive GTree where
  | node (entries : List (String × GTree))
  | blob (data : String)

/-- `full_name = name if not prefix else prefix + "/" + name`. -/
def prefixJoin (pre name : String) : String :=
  if pre = "" then name else pre ++ "/" ++ name

mutual

/-- Embedding of `_walk_tree`: the ordered (path, data) writes it performs.
A blob failing the pattern check ends the current level (the early
`return`); a subtree's recursive call returns normally. -/
def walkTreeEntries (patterns : List String) :
    List (String × GTree) → String → List (String × String)
  | [], _ => []
  | (name, t) :: rest, pre =>
    match walkTreeItem patterns t (prefixJoin pre name) with
    | (ws, true) => ws ++ walkTreeEntries patterns rest pre
    | (ws, false) => ws

/-- One entry of the walk: the writes it performs, and whether the loop over
the remaining siblings continues (`false` models the early `return` on a
non-matching blob). -/
def walkTreeItem (patterns : List String) : GTree → String → List (String × String) × Bool
  | GTree.node entries, full => (walkTreeEntries patterns entries full, true)
  | GTree.blob data, full =>
    if patterns ≠ [] ∧ ¬ ((patterns.any (fun p => fnmatch full p)) = true) then ([], false)
    else ([(full, data)], true)

end

mutual

/-- All blob paths of a tree level (for stating hypotheses about the tree). -/
def treeBlobPaths : List (String × GTree) → String → List String
  | [], _ => []
  | (name, t) :: rest, pre =>
    treeBlobPathsItem t (prefixJoin pre name) ++ treeBlobPaths rest pre

def treeBlobPathsItem : GTree → String → List String
  | GTree.node entries, full => treeBlobPaths entries full
  | GTree.blob _, full => [full]

end

/-- Embedding of `_restore_files_from_commit_sync` after commit resolution:
walk the commit's tree writing matching blobs into the shadow worktree, then
call `sync_shadow_to_config` with `only_paths = restored_files` when
`file_patterns` is truthy and `None` otherwise.  Returns (restored file
list, shadow worktree after the writes, live directory after the sync). -/
def restore_files_from_commit_sync (treeEntries : List (String × GTree))
    (filePatterns : List String) (shadow live : FSL) (sdn : String) :
    List String × FSL × FSL :=
  ((walkTreeEntries filePatterns treeEntries "").map Prod.fst,
   (walkTreeEntries filePatterns treeEntries "").foldl (fun sh w => fsSet sh w.1 w.2) shadow,
   sync_shadow_to_config
     ((walkTreeEntries filePatterns treeEntries "").foldl (fun sh w => fsSet sh w.1 w.2) shadow)
     live
     (if filePatterns ≠ [] then
       some ((walkTreeEntries filePatterns treeEntries "").map Prod.fst)
     else none)
     false sdn)

mutual

theorem walkTreeEntries_nil_of_no_match (patterns : List String) (hp : patterns ≠ []) :
    (entries : List (String × GTree)) → (pre : String) →
    (∀ full ∈ treeBlobPaths entries pre, patterns.any (fun p => fnmatch full p) = false) →
    walkTreeEntries patterns entries pre = []
  | [], _, _ => by simp [walkTreeEntries]
  | (name, t) :: rest, pre, h => by
    have h1 := walkTreeItem_nil_of_no_match patterns hp t (prefixJoin pre name)
      (fun full hf => h full (by
        simp only [treeBlobPaths, List.mem_append]
        exact Or.inl hf))
    have h2 := walkTreeEntries_nil_of_no_match patterns hp rest pre
      (fun full hf => h full (by
        simp only [treeBlobPaths, List.mem_append]
        exact Or.inr hf))
    simp only [walkTreeEntries]
    rcases hitem : walkTreeItem patterns t (prefixJoin pre name) with ⟨ws, flag⟩
    have hws : ws = [] := by
      have := h1
      rw [hitem] at this
      exact this
    subst hws
    cases flag
    · simp
    · simp [h2]

theorem walkTreeItem_nil_of_no_match (patterns : List String) (hp : patterns ≠ []) :
    (t : GTree) → (full : String) →
    (∀ p ∈ treeBlobPathsItem t full, patterns.any (fun pat => fnmatch p pat) = false) →
    (walkTreeItem patterns t full).1 = []
  | GTree.node entries, full, h => by
    simp only [walkTreeItem]
    exact walkTreeEntries_nil_of_no_match patterns hp entries full
      (fun p hf => h p (by simpa [treeBlobPathsItem] using hf))
  | GTree.blob data, full, h => by
    have hm := h full (by simp [treeBlobPathsItem])
    simp [walkTreeItem, hp, hm]

end

theorem fsGet_mem_of_some : ∀ (l : FSL) (q c : String), fsGet l q = some c → (q, c) ∈ l := by
  intro l
  induction l with
  | nil => intro q c h; simp [fsGet] at h
  | cons e rest ih =>
    intro q c h
    simp only [fsGet] at h
    by_cases he : e.1 = q
    · rw [if_pos he] at h
      have hc := Option.some.inj h
      rcases e with ⟨a, b⟩
      simp only [] at he hc
      subst he
      subst hc
      exact List.mem_cons_self _ _
    · rw [if_neg he] at h
      exact List.mem_cons_of_mem e (ih q c h)

theorem fullShadowCopy_visited (shadow live : FSL) (q : String)
    (hq : normpath q = q) (hvis : shadowWalkVisits q = true)
    (hsq : (fsGet shadow q).isSome = true) :
    fsGet (fullShadowCopy shadow live) q = fsGet shadow q := by
  have heq : fullShadowCopy shadow live =
      ((shadow.filter (fun e => shadowWalkVisits e.1)).map Prod.fst).foldl
        (copySingle shadow) live := by
    unfold fullShadowCopy
    rw [List.foldl_map]
  rw [heq, fsGet_copy_fold]
  rcases hc : fsGet shadow q with _ | c
  · rw [hc] at hsq
    simp at hsq
  · have hmem : q ∈ (shadow.filter (fun e => shadowWalkVisits e.1)).map Prod.fst := by
      simp only [List.mem_map, List.mem_filter]
      exact ⟨(q, c), ⟨fsGet_mem_of_some shadow q c hc, hvis⟩, rfl⟩
    have hany : ((shadow.filter (fun e => shadowWalkVisits e.1)).map Prod.fst).any
        (fun p => normpath p = q) = true := by
      rw [List.any_eq_true]
      exact ⟨q, hmem, by simp [hq]⟩
    rw [if_pos ⟨hany, rfl⟩]

/-- Claim C10: when a non-empty `file_patterns` matches no blob of the target
commit's tree, the restored-files list is empty, the shadow worktree is
untouched, and `sync_shadow_to_config` is invoked with `only_paths = []` —
which, being falsy, is treated exactly like `only_paths` not given: a
full-tree sync that copies every visited shadow file to the live directory
rather than copying nothing. -/
theorem c10_restore_empty_only_paths_full_sync (treeEntries : List (String × GTree))
    (patterns : List String) (shadow live : FSL) (sdn : String)
    (hp : patterns ≠ [])
    (hnm : ∀ full ∈ treeBlobPaths treeEntries "",
      patterns.any (fun p => fnmatch full p) = false) :
    (restore_files_from_commit_sync treeEntries patterns shadow live sdn).1 = [] ∧
    (restore_files_from_commit_sync treeEntries patterns shadow live sdn).2.1 = shadow ∧
    (restore_files_from_commit_sync treeEntries patterns shadow live sdn).2.2 =
      sync_shadow_to_config shadow live (some []) false sdn ∧
    sync_shadow_to_config shadow live (some []) false sdn =
      sync_shadow_to_config shadow live none false sdn ∧
    (∀ q, normpath q = q → shadowWalkVisits q = true → (fsGet shadow q).isSome = true →
      fsGet (restore_files_from_commit_sync treeEntries patterns shadow live sdn).2.2 q =
        fsGet shadow q) := by
  have hwalk := walkTreeEntries_nil_of_no_match patterns hp treeEntries "" hnm
  have hsync : sync_shadow_to_config shadow live (some []) false sdn =
      fullShadowCopy shadow live := by
    unfold sync_shadow_to_config shadowCopyPhase onlyTruthy
    rfl
  refine ⟨?_, ?_, ?_, ?_, ?_⟩
  · unfold restore_files_from_commit_sync
    rw [hwalk]
    rfl
  · unfold restore_files_from_commit_sync
    rw [hwalk]
    rfl
  · unfold restore_files_from_commit_sync
    rw [hwalk]
    simp [hp]
  · rw [hsync]
    unfold sync_shadow_to_config shadowCopyPhase onlyTruthy
    rfl
  · intro q hq hvis hsq
    unfold restore_files_from_commit_sync
    rw [hwalk]
    simp only [List.map_nil, List.foldl_nil]
    rw [if_pos hp, hsync]
    exact fullShadowCopy_visited shadow live q hq hvis hsq

/-- Witness for C10 at a concrete state: one blob `a.yaml`, a pattern list
matching nothing, and a shadow file `b.yaml` absent from the live directory
that the full-tree sync nevertheless copies over. -/
theorem c10_restore_empty_only_paths_full_sync_witness :
    (restore_files_from_commit_sync [("a.yaml", GTree.blob "A")] ["*.json"]
        [("b.yaml", "B")] [] "cortex_git").1 = [] ∧
    fsGet (restore_files_from_commit_sync [("a.yaml", GTree.blob "A")] ["*.json"]
        [("b.yaml", "B")] [] "cortex_git").2.2 "b.yaml" = some "B" := by
  have h := c10_restore_empty_only_paths_full_sync [("a.yaml", GTree.blob "A")]
    ["*.json"] [("b.yaml", "B")] [] "cortex_git" (by decide) (by decide)
  refine ⟨h.1, ?_⟩
  have h5 := h.2.2.2.2 "b.yaml" (by decide) (by decide) (by decide)
  rw [h5]
  decide

end AioCortex
